import Mathlib

/-
Verification of the in-memory road-segment graph and its path search
(`src/lib/here/here.ts`).  JavaScript numbers are modelled as rationals,
JavaScript `Map`s as insertion-ordered association lists, and the possibly
diverging `while` loop of `shortestPathBFS` as a fuel-indexed recursion.
The haversine primitive `distanceMeters` (a floating-point, transcendental
function, treated by the project as an external collaborator) is abstracted
as an explicit `dist` parameter of type `Point → Point → ℚ`.
-/

set_option maxRecDepth 4000

/-
Batteries marks rational arithmetic `@[irreducible]`; re-allow unfolding so
that concrete runs of the embedded functions can be settled by `decide`.
-/
attribute [local semireducible] Rat.add Rat.sub Rat.mul

namespace HereGraph

/-- Geographic point `{ latitude, longitude }` as used by the graph module. -/
structure Point where
  latitude : ℚ
  longitude : ℚ
  deriving DecidableEq, Repr

/-- Source: `export type MapGraphSegmentId = number`.  Modelled as `Int`
because the `MapGraphSegment` constructor initialises `id` to `-1`. -/
abbrev MapGraphSegmentId := Int

/-- Source: `class MapGraphSegment`.  The field `end` of the TypeScript class
is written `«end»` here because `end` is a Lean keyword.  `name` is an
`Option String`: the builder assigns `result.location.description!`, where
`description` has type `string | undefined` and `!` is a compile-time cast
with no runtime check. -/
structure MapGraphSegment where
  id : MapGraphSegmentId
  start : Point
  «end» : Point
  length : ℚ
  name : Option String
  edges : List MapGraphSegmentId
  deriving DecidableEq, Repr

/-- Source: `constructor(start, end, length, name)` of `MapGraphSegment`:
sets `id` to `-1` and `edges` to `[]`. -/
def MapGraphSegment.make (start «end» : Point) (length : ℚ) (name : Option String) :
    MapGraphSegment :=
  { id := -1, start := start, «end» := «end», length := length, name := name, edges := [] }

/-- Lookup in an insertion-ordered association list modelling a JavaScript
`Map.get` (a JS `Map` holds each key at most once and iterates in insertion
order). -/
def jsGet {κ α : Type} [DecidableEq κ] (m : List (κ × α)) (k : κ) : Option α :=
  match m with
  | [] => none
  | e :: rest => if e.1 = k then some e.2 else jsGet rest k

/-- Update modelling a JavaScript `Map.set`: replaces the value of an existing
key in place, otherwise appends the new binding. -/
def jsSet {κ α : Type} [DecidableEq κ] (m : List (κ × α)) (k : κ) (v : α) : List (κ × α) :=
  match m with
  | [] => [(k, v)]
  | e :: rest => if e.1 = k then (k, v) :: rest else e :: jsSet rest k v

/-- Source: `class Graph`, with `nodes : Map<MapGraphSegmentId, MapGraphSegment>`
and `byStart : Map<string, MapGraphSegment[]>`.  The `byStart` key is the
string `lat + ',' + lng`; distinct numbers have distinct decimal strings and
the comma separates the two halves, so the coordinate pair is a faithful key. -/
structure Graph where
  nodes : List (MapGraphSegmentId × MapGraphSegment)
  byStart : List ((ℚ × ℚ) × List MapGraphSegment)
  deriving DecidableEq, Repr

/-- Source: `new Graph()` builds the graph with two empty maps. -/
def Graph.empty : Graph := ⟨[], []⟩

/-- The `byStart` key `point.latitude + ',' + point.longitude` of a point. -/
def startKey (p : Point) : ℚ × ℚ := (p.latitude, p.longitude)

/-- Source: `Graph.addSegment`.  `id` is `this.nodes.size` (= the length of the
association list, whose keys are unique).  In the source the bucket receives
the same object whose `id` field is assigned two lines later, so the stored
bucket entry carries the assigned id; the model therefore inserts the updated
segment in both indexes. -/
def Graph.addSegment (g : Graph) (segment : MapGraphSegment) : Graph :=
  let id : MapGraphSegmentId := (g.nodes.length : Int)
  let key : ℚ × ℚ := startKey segment.start
  let seg : MapGraphSegment := { segment with id := id }
  let byStart :=
    match jsGet g.byStart key with
    | some existing => jsSet g.byStart key (existing ++ [seg])
    | none => jsSet g.byStart key [seg]
  { nodes := jsSet g.nodes id seg, byStart := byStart }

/-- Source: `Graph.getSegment(id)` is `this.nodes.get(id)`. -/
def Graph.getSegment (g : Graph) (id : MapGraphSegmentId) : Option MapGraphSegment :=
  jsGet g.nodes id

/-- Source: `Graph.getSegments(point)` is `this.byStart.get(key) || []`. -/
def Graph.getSegments (g : Graph) (point : Point) : List MapGraphSegment :=
  (jsGet g.byStart (startKey point)).getD []

/-- JavaScript `Number.MAX_VALUE` as an exact rational:
`(2 - 2 ^ (-52)) * 2 ^ 1023 = 2 ^ 1024 - 2 ^ 971`, an integer.  It is
computed in `Nat` and cast, so that proofs can evaluate it by kernel
reduction. -/
def maxValue : ℚ := ((2 ^ 1024 - 2 ^ 971 : Nat) : ℚ)

/-- Loop body of `Graph.findClosest`: keep the running minimum distance and
the closest segment so far; the comparison is strict, so the first segment
attaining the minimum wins. -/
def findClosestStep (dist : Point → Point → ℚ) (point : Point)
    (acc : ℚ × Option MapGraphSegment) (segment : MapGraphSegment) :
    ℚ × Option MapGraphSegment :=
  let distance := dist point segment.start
  if distance < acc.1 then (distance, some segment) else acc

/-- Source: `Graph.findClosest(point)`: scans `this.nodes.values()` in
insertion order starting from `minDistance = Number.MAX_VALUE`,
`closest = undefined`.  `dist point segment.start` stands for
`distanceMeters(point.latitude, point.longitude, segment.start.latitude,
segment.start.longitude)`. -/
def Graph.findClosest (dist : Point → Point → ℚ) (g : Graph) (point : Point) :
    Option MapGraphSegment :=
  ((g.nodes.map Prod.snd).foldl (findClosestStep dist point) (maxValue, none)).2

/-- Source: `interface HerePoint { lat; lng }`. -/
structure HerePoint where
  lat : ℚ
  lng : ℚ
  deriving DecidableEq, Repr

/-- Source: `interface HereLink { points; length }`. -/
structure HereLink where
  points : List HerePoint
  length : ℚ
  deriving DecidableEq, Repr

/-- Source: `interface HereShape { links }`. -/
structure HereShape where
  links : List HereLink
  deriving DecidableEq, Repr

/-- Source: `interface HereLocation`.  Only the fields read by the graph
builder are kept (`description`, `shape`); `length` and `hash` are never read
by the graph core. -/
structure HereLocation where
  description : Option String
  shape : HereShape
  deriving DecidableEq, Repr

/-- Source: `interface HereResult`; the `currentFlow` field is never read by
the graph builder and is omitted. -/
structure HereResult where
  location : HereLocation
  deriving DecidableEq, Repr

/-- Source: `interface HereFlowResponse`; `sourceUpdated` is never read by the
graph builder and is omitted. -/
structure HereFlowResponse where
  results : List HereResult
  deriving DecidableEq, Repr

/-- One iteration of the builder's inner loop over `links`.  When
`link.points` is empty, `link.points[0]` is `undefined` and the subsequent
`.lat` access throws a `TypeError`; the thrown exception is modelled as
`none`.  Otherwise `p1` is the first point and `p2` is
`link.points[link.points.length - 1]`, the last point. -/
def insertLink (graph : Graph) (desc : Option String) (link : HereLink) : Option Graph :=
  match link.points with
  | [] => none
  | p1 :: rest =>
    let point1 : Point := ⟨p1.lat, p1.lng⟩
    let p2 : HerePoint := (p1 :: rest).getLast (List.cons_ne_nil p1 rest)
    let point2 : Point := ⟨p2.lat, p2.lng⟩
    some (graph.addSegment (MapGraphSegment.make point1 point2 link.length desc))

/-- The builder's inner `for (const link of result.location.shape.links)` loop. -/
def insertLinks (graph : Graph) (desc : Option String) : List HereLink → Option Graph
  | [] => some graph
  | link :: rest =>
    match insertLink graph desc link with
    | none => none
    | some g => insertLinks g desc rest

/-- The builder's outer `for (const result of response.results)` loop. -/
def insertResults (graph : Graph) : List HereResult → Option Graph
  | [] => some graph
  | r :: rest =>
    match insertLinks graph r.location.description r.location.shape.links with
    | none => none
    | some g => insertResults g rest

/-- Adjacency derivation for one segment: the source pushes
`neighbour.id` for every `neighbour` of `graph.getSegments(segment.end)` onto
`segment.edges`. -/
def updateEdges (g : Graph) (segment : MapGraphSegment) : MapGraphSegment :=
  { segment with edges := segment.edges ++ (g.getSegments segment.«end»).map (fun n => n.id) }

/-- The adjacency pass `graph.forEach((segment) => ...)`.  In the source the
pass mutates each shared segment object in place, so every occurrence of an
object — in `nodes` and in any `byStart` bucket — ends up with the extended
`edges`.  The pass reads only segment `id`s, which it never modifies, so
applying the same pure update to every occurrence reproduces the final heap. -/
def finalizeGraph (g : Graph) : Graph :=
  { nodes := g.nodes.map (fun e => (e.1, updateEdges g e.2)),
    byStart := g.byStart.map (fun b => (b.1, b.2.map (updateEdges g))) }

/-- Source: `buildGraphFromHereResponse(response)`: insert one segment per
link of every result, then run the adjacency pass.  `none` models the
`TypeError` thrown on a link whose `points` array is empty. -/
def buildGraphFromHereResponse (response : HereFlowResponse) : Option Graph :=
  (insertResults Graph.empty response.results).map finalizeGraph

/-- Source: `interface VisitedNode` inside `shortestPathBFS`:
`shortestPathLength` is the cumulative length of the recorded path up to but
not including the segment itself, `length` the segment's own length. -/
structure VisitedNode where
  shortestPath : List MapGraphSegment
  shortestPathLength : ℚ
  length : ℚ
  deriving DecidableEq, Repr

/-- Source: `insertOrdered(array, segment)`: advance past entries with
`array[index].length < segment.length` and splice the segment in before the
first entry whose `length` is at least `segment.length`. -/
def insertOrdered (array : List MapGraphSegment) (segment : MapGraphSegment) :
    List MapGraphSegment :=
  match array with
  | [] => [segment]
  | a :: rest =>
    if a.length < segment.length then a :: insertOrdered rest segment
    else segment :: a :: rest

/-- Source: the `populate` reducer: map an edge id to its segment via
`graph.getSegment`, dropping unknown ids, pushing hits onto the accumulator. -/
def populate (g : Graph) (segments : List MapGraphSegment) (id : MapGraphSegmentId) :
    List MapGraphSegment :=
  match g.getSegment id with
  | none => segments
  | some segment => segments ++ [segment]

/-- The mutable state of one `shortestPathBFS` invocation: the graph captured
by the closure, the ordered frontier `queue`, and the `visited` map.  The
graph is part of the state so that the absence of mutation (the search only
ever reads it) is a provable statement rather than a modelling assumption. -/
structure SearchState where
  graph : Graph
  queue : List MapGraphSegment
  visited : List (MapGraphSegmentId × VisitedNode)
  deriving DecidableEq, Repr

/-- Body of `for (const edge of segment.edges)`, acting on the pair
(queue, visited).  `visitedNode` is the `const` binding of the dequeued
segment's entry, read once before the loop; `newLength` is
`visitedNode.shortestPathLength + visitedNode.length`.  On improvement the
neighbour's entry is overwritten and the neighbour's own onward neighbours
(not the neighbour itself) are inserted into the queue in `length` order. -/
def relaxEdge (g : Graph) (visitedNode : VisitedNode)
    (st : List MapGraphSegment × List (MapGraphSegmentId × VisitedNode))
    (edge : MapGraphSegmentId) :
    List MapGraphSegment × List (MapGraphSegmentId × VisitedNode) :=
  match g.getSegment edge with
  | none => st
  | some nextSegment =>
    let nextVisitedNode := jsGet st.2 nextSegment.id
    let newLength := visitedNode.shortestPathLength + visitedNode.length
    let improve : Bool :=
      match nextVisitedNode with
      | none => true
      | some nv => decide (newLength < nv.shortestPathLength)
    if improve then
      let visited := jsSet st.2 nextSegment.id
        ⟨visitedNode.shortestPath ++ [nextSegment], newLength, nextSegment.length⟩
      let queue := (nextSegment.edges.foldl (populate g) []).foldl insertOrdered st.1
      (queue, visited)
    else st

/-- The `while (queue.length > 0)` loop of `shortestPathBFS`.  Each iteration
shifts the head of the queue, re-fetches it by id, skips it when the id is
unknown or unvisited, returns its recorded path when it is the destination,
and otherwise relaxes its edges.  The loop need not terminate (a cycle whose
lengths relax forever is not excluded by the code), so the recursion is
fuel-indexed: the first component is `some r` when the loop exits with the
JavaScript result `r` (`undefined` modelled as `none`), and `none` when the
fuel ran out first; the second component is the final mutable state. -/
def searchLoop (endId : MapGraphSegmentId) :
    Nat → SearchState → Option (Option (List MapGraphSegment)) × SearchState
  | fuel, st =>
    match st.queue with
    | [] => (some none, st)
    | q0 :: rest =>
      match fuel with
      | 0 => (none, st)
      | fuel' + 1 =>
        match st.graph.getSegment q0.id with
        | none => searchLoop endId fuel' ⟨st.graph, rest, st.visited⟩
        | some segment =>
          match jsGet st.visited segment.id with
          | none => searchLoop endId fuel' ⟨st.graph, rest, st.visited⟩
          | some visitedNode =>
            if segment.id = endId then
              (some (some visitedNode.shortestPath), ⟨st.graph, rest, st.visited⟩)
            else
              let qv := segment.edges.foldl (relaxEdge st.graph visitedNode) (rest, st.visited)
              searchLoop endId fuel' ⟨st.graph, qv.1, qv.2⟩

/-- Source: `shortestPathBFS(graph, start, end)`: resolve both endpoints with
`findClosest` (returning `undefined`, modelled `some none`, if either fails),
seed `visited` with the start segment (empty path, zero cumulative length)
and the queue with `insertOrdered([], startSegment)`, then run the loop.
`fuel` bounds the number of loop iterations of the model; the outer `none`
means the bound was reached before the loop exited. -/
def shortestPathBFS (dist : Point → Point → ℚ) (graph : Graph)
    (start «end» : Point) (fuel : Nat) : Option (Option (List MapGraphSegment)) :=
  match graph.findClosest dist start, graph.findClosest dist «end» with
  | some startSegment, some endSegment =>
    let visited := jsSet [] startSegment.id ⟨[], 0, startSegment.length⟩
    let queue := insertOrdered [] startSegment
    (searchLoop endSegment.id fuel ⟨graph, queue, visited⟩).1
  | _, _ => some none

/-- Concrete stand-in distance used by witnesses: squared Euclidean distance
on coordinates.  The claim theorems take the distance function as an abstract
parameter constrained only by ordering hypotheses true of the haversine
`distanceMeters`; this computable function satisfies those hypotheses on the
fixture points and lets witnesses evaluate by `decide`. -/
def testDist (a b : Point) : ℚ :=
  (a.latitude - b.latitude) * (a.latitude - b.latitude) +
  (a.longitude - b.longitude) * (a.longitude - b.longitude)

/-- Fixture from the specification: three chained links
A = (0,0)→(1,1), B = (1,1)→(2,2), C = (2,2)→(3,3), each of length 10. -/
def fixtureResponse : HereFlowResponse :=
  ⟨[⟨⟨some "fixture",
      ⟨[⟨[⟨0, 0⟩, ⟨1, 1⟩], 10⟩,
        ⟨[⟨1, 1⟩, ⟨2, 2⟩], 10⟩,
        ⟨[⟨2, 2⟩, ⟨3, 3⟩], 10⟩]⟩⟩⟩]⟩

/-- The graph the builder produces from `fixtureResponse`. -/
def fixtureGraph : Graph := (buildGraphFromHereResponse fixtureResponse).getD Graph.empty

/-- Segment A of the fixture as stored in `fixtureGraph`. -/
def fixtureSegA : MapGraphSegment := ⟨0, ⟨0, 0⟩, ⟨1, 1⟩, 10, some "fixture", [1]⟩

/-- Segment B of the fixture as stored in `fixtureGraph`. -/
def fixtureSegB : MapGraphSegment := ⟨1, ⟨1, 1⟩, ⟨2, 2⟩, 10, some "fixture", [2]⟩

/-- Segment C of the fixture as stored in `fixtureGraph`. -/
def fixtureSegC : MapGraphSegment := ⟨2, ⟨2, 2⟩, ⟨3, 3⟩, 10, some "fixture", []⟩

/-- A response containing a link whose `points` array is empty. -/
def emptyLinkResponse : HereFlowResponse :=
  ⟨[⟨⟨some "empty", ⟨[⟨[], 5⟩]⟩⟩⟩]⟩

/-- A response containing a link with exactly one point. -/
def singleLinkResponse : HereFlowResponse :=
  ⟨[⟨⟨some "single", ⟨[⟨[⟨7, 8⟩], 5⟩]⟩⟩⟩]⟩

/-- The graph the builder produces from `singleLinkResponse`. -/
def singleGraph : Graph := (buildGraphFromHereResponse singleLinkResponse).getD Graph.empty

/-- The degenerate segment stored in `singleGraph`: its start equals its end
and its `edges` list contains its own id. -/
def singleSeg : MapGraphSegment := ⟨0, ⟨7, 8⟩, ⟨7, 8⟩, 5, some "single", [0]⟩

/-- Two disconnected segments: each is a sink (no segment starts at its end
point), and the second lies beyond the first. -/
def sinkResponse : HereFlowResponse :=
  ⟨[⟨⟨some "sink", ⟨[⟨[⟨0, 0⟩, ⟨1, 1⟩], 10⟩, ⟨[⟨5, 5⟩, ⟨6, 6⟩], 10⟩]⟩⟩⟩]⟩

/-- The graph the builder produces from `sinkResponse`. -/
def sinkGraph : Graph := (buildGraphFromHereResponse sinkResponse).getD Graph.empty

/-- The first sink segment as stored in `sinkGraph`. -/
def sinkSegA : MapGraphSegment := ⟨0, ⟨0, 0⟩, ⟨1, 1⟩, 10, some "sink", []⟩

/-- The second sink segment as stored in `sinkGraph`. -/
def sinkSegB : MapGraphSegment := ⟨1, ⟨5, 5⟩, ⟨6, 6⟩, 10, some "sink", []⟩

/-- Reading back the key just written returns the new value. -/
theorem jsGet_jsSet_self {κ α : Type} [DecidableEq κ] (m : List (κ × α)) (k : κ) (v : α) :
    jsGet (jsSet m k v) k = some v := by
  induction m with
  | nil => simp [jsGet, jsSet]
  | cons e rest ih =>
    by_cases h : e.1 = k
    · simp [jsSet, h, jsGet]
    · simp [jsSet, h, jsGet, ih]

/-- Writing one key leaves every other key unchanged. -/
theorem jsGet_jsSet_ne {κ α : Type} [DecidableEq κ] (m : List (κ × α)) (k k' : κ) (v : α)
    (h : k' ≠ k) : jsGet (jsSet m k v) k' = jsGet m k' := by
  have h' : ¬k = k' := fun he => h he.symm
  induction m with
  | nil => simp [jsGet, jsSet, h']
  | cons e rest ih =>
    by_cases he : e.1 = k
    · have he' : ¬e.1 = k' := he ▸ h'
      simp [jsSet, jsGet, he, he', h']
    · simp [jsSet, jsGet, he, ih]

/-- Setting a key that is not present appends the binding at the end. -/
theorem jsSet_fresh {κ α : Type} [DecidableEq κ] (m : List (κ × α)) (k : κ) (v : α)
    (h : k ∉ m.map Prod.fst) : jsSet m k v = m ++ [(k, v)] := by
  induction m with
  | nil => simp [jsSet]
  | cons e rest ih =>
    simp only [List.map_cons, List.mem_cons, not_or] at h
    simp [jsSet, Ne.symm h.1, ih h.2]

/-- A key that is not present reads back as `none`. -/
theorem jsGet_fresh {κ α : Type} [DecidableEq κ] (m : List (κ × α)) (k : κ)
    (h : k ∉ m.map Prod.fst) : jsGet m k = none := by
  induction m with
  | nil => rfl
  | cons e rest ih =>
    simp only [List.map_cons, List.mem_cons, not_or] at h
    simp [jsGet, Ne.symm h.1, ih h.2]

/-- Builder invariant: the keys of `nodes` are exactly `0, 1, ..., n-1` in
order, as produced by a sequence of `addSegment` calls on an empty graph. -/
def KeysSeq (g : Graph) : Prop :=
  g.nodes.map Prod.fst = (List.range g.nodes.length).map Int.ofNat

/-- Builder invariant: every stored segment's `id` field equals its key. -/
def IdsMatch (g : Graph) : Prop :=
  ∀ e ∈ g.nodes, e.2.id = e.1

/-- Builder invariant: every `byStart` bucket holds exactly the stored
segments whose start has that key, in insertion order. -/
def Buckets (g : Graph) : Prop :=
  ∀ k : ℚ × ℚ, (jsGet g.byStart k).getD [] =
    (g.nodes.map Prod.snd).filter (fun s => decide (startKey s.start = k))

/-- The fresh id `nodes.length` is not among the keys of a `KeysSeq` graph. -/
theorem KeysSeq.fresh {g : Graph} (h : KeysSeq g) :
    ((g.nodes.length : Int)) ∉ g.nodes.map Prod.fst := by
  rw [h]
  intro hmem
  obtain ⟨n, hn, heq⟩ := List.mem_map.mp hmem
  rw [List.mem_range] at hn
  rw [Int.ofNat_eq_natCast] at heq
  have hne : n = g.nodes.length := by exact_mod_cast heq
  omega

/-- On a `KeysSeq` graph, `addSegment` appends the segment (with its assigned
id) to the `nodes` table. -/
theorem addSegment_nodes {g : Graph} (s : MapGraphSegment) (h : KeysSeq g) :
    (g.addSegment s).nodes =
      g.nodes ++ [((g.nodes.length : Int), { s with id := (g.nodes.length : Int) })] := by
  simp only [Graph.addSegment]
  exact jsSet_fresh _ _ _ h.fresh

/-- `addSegment` preserves `KeysSeq`. -/
theorem keysSeq_addSegment {g : Graph} (h : KeysSeq g) (s : MapGraphSegment) :
    KeysSeq (g.addSegment s) := by
  unfold KeysSeq
  rw [addSegment_nodes s h]
  simp only [List.map_append, List.length_append, List.map_cons, List.map_nil,
    List.length_cons, List.length_nil]
  rw [h]
  rw [List.range_succ]
  simp [Int.ofNat_eq_coe]

/-- `addSegment` preserves `IdsMatch`. -/
theorem idsMatch_addSegment {g : Graph} (hk : KeysSeq g) (h : IdsMatch g)
    (s : MapGraphSegment) : IdsMatch (g.addSegment s) := by
  unfold IdsMatch
  rw [addSegment_nodes s hk]
  intro e he
  rcases List.mem_append.mp he with h1 | h2
  · exact h e h1
  · simp at h2
    subst h2
    rfl

/-- Characterisation of the `byStart` buckets after `addSegment`: the bucket
of the new segment's start key gains the segment at its end, every other
bucket is unchanged. -/
theorem addSegment_buckets {g : Graph} (s : MapGraphSegment) (k : ℚ × ℚ) :
    (jsGet (g.addSegment s).byStart k).getD [] =
      (jsGet g.byStart k).getD [] ++
        (if startKey s.start = k then [{ s with id := (g.nodes.length : Int) }] else []) := by
  simp only [Graph.addSegment]
  by_cases hk : startKey s.start = k
  · subst hk
    cases hbk : jsGet g.byStart (startKey s.start) with
    | none => simp [hbk, jsGet_jsSet_self]
    | some existing => simp [hbk, jsGet_jsSet_self]
  · cases hbk : jsGet g.byStart (startKey s.start) with
    | none => simp [hbk, jsGet_jsSet_ne _ _ _ _ (fun he => hk he.symm), hk]
    | some existing => simp [hbk, jsGet_jsSet_ne _ _ _ _ (fun he => hk he.symm), hk]

/-- `addSegment` preserves `Buckets`. -/
theorem buckets_addSegment {g : Graph} (hk : KeysSeq g) (h : Buckets g)
    (s : MapGraphSegment) : Buckets (g.addSegment s) := by
  intro k
  rw [addSegment_buckets s k, addSegment_nodes s hk, h k]
  simp only [List.map_append, List.map_cons, List.map_nil, List.filter_append]
  congr 1
  by_cases hs : startKey s.start = k
  · simp [List.filter_cons, hs]
  · simp [List.filter_cons, hs]

/-- Combined invariant maintained by the builder before the adjacency pass. -/
def BuilderInv (g : Graph) : Prop := KeysSeq g ∧ IdsMatch g ∧ Buckets g

/-- The segments of a graph in insertion order (`this.nodes.values()`). -/
def Graph.segs (g : Graph) : List MapGraphSegment := g.nodes.map Prod.snd

/-- The empty graph satisfies the builder invariant. -/
theorem builderInv_empty : BuilderInv Graph.empty := by
  refine ⟨rfl, ?_, ?_⟩
  · intro e he
    simp [Graph.empty] at he
  · intro k
    simp [Graph.empty, jsGet, Graph.segs]

/-- `addSegment` preserves the combined builder invariant. -/
theorem builderInv_addSegment {g : Graph} (h : BuilderInv g) (s : MapGraphSegment) :
    BuilderInv (g.addSegment s) :=
  ⟨keysSeq_addSegment h.1 s, idsMatch_addSegment h.1 h.2.1 s, buckets_addSegment h.1 h.2.2 s⟩

/-- On a `KeysSeq` graph the segment list grows by the inserted segment. -/
theorem addSegment_segs {g : Graph} (s : MapGraphSegment) (h : KeysSeq g) :
    (g.addSegment s).segs = g.segs ++ [{ s with id := (g.nodes.length : Int) }] := by
  unfold Graph.segs
  rw [addSegment_nodes s h]
  simp

/-- Pre-pass invariant: no stored segment has any edges yet. -/
def NoEdges (g : Graph) : Prop := ∀ s ∈ g.segs, s.edges = []

/-- The empty graph has no edges. -/
theorem noEdges_empty : NoEdges Graph.empty := by
  intro s hs
  simp [Graph.segs, Graph.empty] at hs

/-- Inserting an edge-free segment preserves `NoEdges`. -/
theorem noEdges_addSegment {g : Graph} (hk : KeysSeq g) (h : NoEdges g) {s : MapGraphSegment}
    (hs : s.edges = []) : NoEdges (g.addSegment s) := by
  intro t ht
  rw [addSegment_segs s hk] at ht
  rcases List.mem_append.mp ht with h1 | h2
  · exact h t h1
  · simp at h2
    subst h2
    exact hs

/-- Shape of a successful `insertLink`: the link has a first point and the
graph gains exactly the segment built from its first and last points. -/
theorem insertLink_some {g g' : Graph} {desc : Option String} {link : HereLink}
    (h : insertLink g desc link = some g') :
    ∃ p1 rest, link.points = p1 :: rest ∧
      g' = g.addSegment (MapGraphSegment.make
        ⟨p1.lat, p1.lng⟩
        ⟨((p1 :: rest).getLast (List.cons_ne_nil p1 rest)).lat,
         ((p1 :: rest).getLast (List.cons_ne_nil p1 rest)).lng⟩
        link.length desc) := by
  unfold insertLink at h
  cases hp : link.points with
  | nil => rw [hp] at h; exact absurd h (by simp)
  | cons p1 rest =>
    rw [hp] at h
    exact ⟨p1, rest, rfl, (Option.some_inj.mp h).symm⟩

/-- `insertLinks` preserves the builder invariant and `NoEdges`. -/
theorem insertLinks_inv {desc : Option String} :
    ∀ (links : List HereLink) (g g' : Graph), BuilderInv g → NoEdges g →
      insertLinks g desc links = some g' → BuilderInv g' ∧ NoEdges g' := by
  intro links
  induction links with
  | nil =>
    intro g g' hinv hne h
    simp only [insertLinks] at h
    exact Option.some_inj.mp h ▸ ⟨hinv, hne⟩
  | cons link rest ih =>
    intro g g' hinv hne h
    simp only [insertLinks] at h
    cases hl : insertLink g desc link with
    | none => rw [hl] at h; exact absurd h (by simp)
    | some g1 =>
      rw [hl] at h
      obtain ⟨p1, ps, _, hg1⟩ := insertLink_some hl
      subst hg1
      exact ih _ g' (builderInv_addSegment hinv _) (noEdges_addSegment hinv.1 hne rfl) h

/-- `insertResults` preserves the builder invariant and `NoEdges`. -/
theorem insertResults_inv :
    ∀ (results : List HereResult) (g g' : Graph), BuilderInv g → NoEdges g →
      insertResults g results = some g' → BuilderInv g' ∧ NoEdges g' := by
  intro results
  induction results with
  | nil =>
    intro g g' hinv hne h
    simp only [insertResults] at h
    exact Option.some_inj.mp h ▸ ⟨hinv, hne⟩
  | cons r rest ih =>
    intro g g' hinv hne h
    simp only [insertResults] at h
    cases hl : insertLinks g r.location.description r.location.shape.links with
    | none => rw [hl] at h; exact absurd h (by simp)
    | some g1 =>
      rw [hl] at h
      obtain ⟨hinv1, hne1⟩ := insertLinks_inv _ g g1 hinv hne hl
      exact ih g1 g' hinv1 hne1 h

/-- Decomposition of a successful build: an insertion phase satisfying the
builder invariant, followed by the adjacency pass. -/
theorem build_decomp {response : HereFlowResponse} {g : Graph}
    (h : buildGraphFromHereResponse response = some g) :
    ∃ g₀, insertResults Graph.empty response.results = some g₀ ∧
      BuilderInv g₀ ∧ NoEdges g₀ ∧ g = finalizeGraph g₀ := by
  unfold buildGraphFromHereResponse at h
  cases hr : insertResults Graph.empty response.results with
  | none => rw [hr] at h; exact absurd h (by simp)
  | some g₀ =>
    rw [hr] at h
    obtain ⟨hinv, hne⟩ := insertResults_inv _ _ _ builderInv_empty noEdges_empty hr
    exact ⟨g₀, rfl, hinv, hne, (Option.some_inj.mp h).symm⟩

/-- The adjacency pass maps `updateEdges` over the stored segments. -/
theorem finalizeGraph_segs (g : Graph) :
    (finalizeGraph g).segs = g.segs.map (updateEdges g) := by
  simp [finalizeGraph, Graph.segs, Function.comp]

/-- `updateEdges` does not change the `id`. -/
theorem updateEdges_id (g : Graph) (s : MapGraphSegment) : (updateEdges g s).id = s.id := rfl

/-- `updateEdges` does not change the `start`. -/
theorem updateEdges_start (g : Graph) (s : MapGraphSegment) :
    (updateEdges g s).start = s.start := rfl

/-- `updateEdges` does not change the `end`. -/
theorem updateEdges_end (g : Graph) (s : MapGraphSegment) :
    (updateEdges g s).«end» = s.«end» := rfl

/-- The `byStart` key function is injective: points are equal exactly when
their coordinate keys are. -/
theorem startKey_inj {p p' : Point} : startKey p = startKey p' ↔ p = p' := by
  constructor
  · intro h
    cases p; cases p'
    simpa [startKey, Point.mk.injEq, Prod.ext_iff] using h
  · intro h
    rw [h]

/-- After the pass, the edges of a pre-pass segment are exactly the ids of
the pre-pass segments starting at its end point, in insertion order. -/
theorem updateEdges_edges {g : Graph} (hinv : BuilderInv g) (hne : NoEdges g)
    {s : MapGraphSegment} (hs : s ∈ g.segs) :
    (updateEdges g s).edges =
      (g.segs.filter (fun t => decide (t.start = s.«end»))).map (fun t => t.id) := by
  have hbucket := hinv.2.2 (startKey s.«end»)
  unfold updateEdges Graph.getSegments
  rw [hne s hs, hbucket]
  simp only [List.nil_append]
  congr 1
  apply List.filter_congr
  intro t _
  simp [startKey_inj]

/-- Claim C2: for every Graph produced by the graph builder and every segment
`s` in it, after the adjacency pass `s.edges` equals, as a set, exactly the
set of identifiers of segments whose start coordinate equals `s`'s end
coordinate. -/
theorem claim_C2 (response : HereFlowResponse) (g : Graph)
    (h : buildGraphFromHereResponse response = some g) :
    ∀ s ∈ g.segs, ∀ i : MapGraphSegmentId,
      i ∈ s.edges ↔ ∃ t ∈ g.segs, t.start = s.«end» ∧ t.id = i := by
  obtain ⟨g₀, -, hinv, hne, hfin⟩ := build_decomp h
  subst hfin
  intro s hs i
  rw [finalizeGraph_segs] at hs
  obtain ⟨s₀, hs₀, rfl⟩ := List.mem_map.mp hs
  rw [updateEdges_edges hinv hne hs₀, finalizeGraph_segs, updateEdges_end]
  constructor
  · intro hi
    obtain ⟨t₀, ht₀, rfl⟩ := List.mem_map.mp hi
    have ht₀mem := List.mem_filter.mp ht₀
    refine ⟨updateEdges g₀ t₀, List.mem_map.mpr ⟨t₀, ht₀mem.1, rfl⟩, ?_, rfl⟩
    rw [updateEdges_start]
    exact of_decide_eq_true ht₀mem.2
  · rintro ⟨t, htmem, hstart, rfl⟩
    obtain ⟨t₀, ht₀, rfl⟩ := List.mem_map.mp htmem
    rw [updateEdges_start] at hstart
    rw [updateEdges_id]
    exact List.mem_map.mpr ⟨t₀, List.mem_filter.mpr ⟨ht₀, decide_eq_true hstart⟩, rfl⟩

/-- Witness for C2 at the chain fixture: segment A's edge set is exactly the
ids of the segments starting at (1,1), here the single id 1. -/
theorem claim_C2_witness :
    (1 : Int) ∈ fixtureSegA.edges ↔
      ∃ t ∈ fixtureGraph.segs, t.start = fixtureSegA.«end» ∧ t.id = 1 := by
  have hb : buildGraphFromHereResponse fixtureResponse = some fixtureGraph := by decide
  have hs : fixtureSegA ∈ fixtureGraph.segs := by decide
  exact claim_C2 fixtureResponse fixtureGraph hb fixtureSegA hs 1

/-- Claim C10: in every graph the builder produces, a degenerate segment
(start = end) lists its own identifier among its edges: it is itself among
the segments starting at its end point. -/
theorem claim_C10 (response : HereFlowResponse) (g : Graph)
    (h : buildGraphFromHereResponse response = some g) :
    ∀ s ∈ g.segs, s.start = s.«end» → s.id ∈ s.edges := by
  obtain ⟨g₀, -, hinv, hne, hfin⟩ := build_decomp h
  subst hfin
  intro s hs hdeg
  rw [finalizeGraph_segs] at hs
  obtain ⟨s₀, hs₀, rfl⟩ := List.mem_map.mp hs
  rw [updateEdges_start, updateEdges_end] at hdeg
  rw [updateEdges_edges hinv hne hs₀, updateEdges_id]
  exact List.mem_map.mpr ⟨s₀, List.mem_filter.mpr ⟨hs₀, decide_eq_true hdeg⟩, rfl⟩

/-- Witness for C10 at the single-point-link fixture: the degenerate segment
(7,8)→(7,8) has the self-loop edge 0. -/
theorem claim_C10_witness : singleSeg.id ∈ singleSeg.edges := by
  have hb : buildGraphFromHereResponse singleLinkResponse = some singleGraph := by decide
  have hs : singleSeg ∈ singleGraph.segs := by decide
  exact claim_C10 singleLinkResponse singleGraph hb singleSeg hs (by decide)

/-- Folding `addSegment` over a segment list appends one entry per segment,
keyed and id-ed by its insertion index (counting from the size the graph had
when the fold started). -/
theorem foldl_addSegment_nodes :
    ∀ (l : List MapGraphSegment) (g : Graph), KeysSeq g →
      (l.foldl Graph.addSegment g).nodes =
        g.nodes ++ (l.enumFrom g.nodes.length).map
          (fun p => ((p.1 : Int), { p.2 with id := (p.1 : Int) })) := by
  intro l
  induction l with
  | nil =>
    intro g hg
    simp [List.enumFrom]
  | cons s rest ih =>
    intro g hg
    have hnodes := addSegment_nodes s hg
    have hlen : (g.addSegment s).nodes.length = g.nodes.length + 1 := by
      rw [hnodes]
      simp
    rw [List.foldl_cons, ih _ (keysSeq_addSegment hg s), hlen, hnodes]
    simp [List.enumFrom, List.append_assoc]

/-- Claim C6: building a graph by a sequence of `addSegment` insertions gives
every segment an id equal to its 0-based insertion order, stored under that
id as key in the primary table, and all ids are distinct. -/
theorem claim_C6 (l : List MapGraphSegment) :
    (l.foldl Graph.addSegment Graph.empty).nodes =
      l.enum.map (fun p => ((p.1 : Int), { p.2 with id := (p.1 : Int) })) ∧
    ((l.foldl Graph.addSegment Graph.empty).segs.map (fun s => s.id)).Nodup := by
  have hkeys : KeysSeq Graph.empty := by simp [KeysSeq, Graph.empty]
  have h := foldl_addSegment_nodes l Graph.empty hkeys
  have h1 : (l.foldl Graph.addSegment Graph.empty).nodes =
      l.enum.map (fun p => ((p.1 : Int), { p.2 with id := (p.1 : Int) })) := by
    simpa [Graph.empty, List.enum] using h
  refine ⟨h1, ?_⟩
  have h2 : (l.foldl Graph.addSegment Graph.empty).segs.map (fun s => s.id) =
      (l.enum.map Prod.fst).map Int.ofNat := by
    unfold Graph.segs
    rw [h1, List.map_map, List.map_map, List.map_map]
    rfl
  rw [h2, List.enum_map_fst]
  exact (List.nodup_range l.length).map (fun a b hab => Int.ofNat.inj hab)

/-- If no scanned segment is strictly closer than the running minimum, the
`findClosest` scan leaves the accumulator unchanged. -/
theorem findClosest_scan_none (dist : Point → Point → ℚ) (point : Point) :
    ∀ (l : List MapGraphSegment) (m : ℚ) (c : Option MapGraphSegment),
      (∀ t ∈ l, ¬ dist point t.start < m) →
      l.foldl (findClosestStep dist point) (m, c) = (m, c) := by
  intro l
  induction l with
  | nil =>
    intro m c _
    rfl
  | cons s rest ih =>
    intro m c h
    have hs : ¬ dist point s.start < m := h s (by simp)
    rw [List.foldl_cons]
    have hstep : findClosestStep dist point (m, c) s = (m, c) := by
      simp [findClosestStep, hs]
    rw [hstep]
    exact ih m c (fun t ht => h t (by simp [ht]))

/-- If some scanned segment is strictly closer than the running minimum, the
scan returns the first segment attaining the minimal distance. -/
theorem findClosest_scan_found (dist : Point → Point → ℚ) (point : Point) :
    ∀ (l : List MapGraphSegment) (m : ℚ) (c : Option MapGraphSegment),
      (∃ t ∈ l, dist point t.start < m) →
      ∃ (i : ℕ) (s : MapGraphSegment), l[i]? = some s ∧
        l.foldl (findClosestStep dist point) (m, c) = (dist point s.start, some s) ∧
        dist point s.start < m ∧
        (∀ t ∈ l, dist point s.start ≤ dist point t.start) ∧
        (∀ j, j < i → ∀ t, l[j]? = some t → dist point s.start < dist point t.start) := by
  intro l
  induction l with
  | nil =>
    intro m c h
    simp at h
  | cons s0 rest ih =>
    intro m c h
    by_cases h0 : dist point s0.start < m
    · have hstep : List.foldl (findClosestStep dist point) (m, c) (s0 :: rest)
          = List.foldl (findClosestStep dist point) (dist point s0.start, some s0) rest := by
        rw [List.foldl_cons]
        simp [findClosestStep, h0]
      by_cases hrest : ∃ t ∈ rest, dist point t.start < dist point s0.start
      · obtain ⟨i', s, hget, hfold, hlt, hmin, hfirst⟩ :=
          ih (dist point s0.start) (some s0) hrest
        refine ⟨i' + 1, s, by simpa using hget, by rw [hstep]; exact hfold,
          hlt.trans h0, ?_, ?_⟩
        · intro t ht
          rcases List.mem_cons.mp ht with heq | htr
          · exact heq ▸ le_of_lt hlt
          · exact hmin t htr
        · intro j hj t hget'
          cases j with
          | zero =>
            simp only [List.getElem?_cons_zero, Option.some_inj] at hget'
            exact hget' ▸ hlt
          | succ j' =>
            rw [List.getElem?_cons_succ] at hget'
            exact hfirst j' (Nat.lt_of_succ_lt_succ hj) t hget'
      · push_neg at hrest
        have hfold := findClosest_scan_none dist point rest (dist point s0.start) (some s0)
          (fun t ht => not_lt.mpr (hrest t ht))
        refine ⟨0, s0, by simp, by rw [hstep]; exact hfold, h0, ?_, ?_⟩
        · intro t ht
          rcases List.mem_cons.mp ht with heq | htr
          · exact heq ▸ le_refl _
          · exact hrest t htr
        · intro j hj t _
          exact absurd hj (Nat.not_lt_zero j)
    · have hstep : List.foldl (findClosestStep dist point) (m, c) (s0 :: rest)
          = List.foldl (findClosestStep dist point) (m, c) rest := by
        rw [List.foldl_cons]
        simp [findClosestStep, h0]
      have hrest : ∃ t ∈ rest, dist point t.start < m := by
        obtain ⟨t, ht, hlt⟩ := h
        rcases List.mem_cons.mp ht with heq | htr
        · exact absurd (heq ▸ hlt) h0
        · exact ⟨t, htr, hlt⟩
      obtain ⟨i', s, hget, hfold, hlt, hmin, hfirst⟩ := ih m c hrest
      refine ⟨i' + 1, s, by simpa using hget, by rw [hstep]; exact hfold, hlt, ?_, ?_⟩
      · intro t ht
        rcases List.mem_cons.mp ht with heq | htr
        · exact heq ▸ le_of_lt (lt_of_lt_of_le hlt (not_lt.mp h0))
        · exact hmin t htr
      · intro j hj t hget'
        cases j with
        | zero =>
          simp only [List.getElem?_cons_zero, Option.some_inj] at hget'
          exact hget' ▸ lt_of_lt_of_le hlt (not_lt.mp h0)
        | succ j' =>
          rw [List.getElem?_cons_succ] at hget'
          exact hfirst j' (Nat.lt_of_succ_lt_succ hj) t hget'

/-- Claim C3: on a non-empty graph (whose start points all lie strictly
closer than `Number.MAX_VALUE`, as every haversine distance does),
`findClosest` returns a stored segment at minimal distance from the query
point, and among the segments attaining that minimum, the first in insertion
order. -/
theorem claim_C3 (dist : Point → Point → ℚ) (g : Graph) (p : Point)
    (hne : g.segs ≠ [])
    (hb : ∀ t ∈ g.segs, dist p t.start < maxValue) :
    ∃ (i : ℕ) (s : MapGraphSegment),
      Graph.findClosest dist g p = some s ∧ g.segs[i]? = some s ∧
      (∀ t ∈ g.segs, ¬ dist p t.start < dist p s.start) ∧
      (∀ j, j < i → ∀ t, g.segs[j]? = some t → dist p s.start < dist p t.start) := by
  have hex : ∃ t ∈ g.segs, dist p t.start < maxValue := by
    cases hsegs : g.segs with
    | nil => exact absurd hsegs hne
    | cons t rest =>
      exact ⟨t, by simp, hb t (by simp [hsegs])⟩
  obtain ⟨i, s, hget, hfold, _, hmin, hfirst⟩ :=
    findClosest_scan_found dist p g.segs maxValue none hex
  have hclosest : Graph.findClosest dist g p =
      (g.segs.foldl (findClosestStep dist p) (maxValue, none)).2 := rfl
  refine ⟨i, s, ?_, hget, fun t ht => not_lt.mpr (hmin t ht), hfirst⟩
  rw [hclosest, hfold]

/-- Witness for C3: on the chain fixture with the stand-in distance, querying
(3,3) resolves to a closest stored segment (namely C, whose start (2,2) is
nearest). -/
theorem claim_C3_witness :
    ∃ (i : ℕ) (s : MapGraphSegment),
      Graph.findClosest testDist fixtureGraph ⟨3, 3⟩ = some s ∧
      fixtureGraph.segs[i]? = some s ∧
      (∀ t ∈ fixtureGraph.segs, ¬ testDist ⟨3, 3⟩ t.start < testDist ⟨3, 3⟩ s.start) ∧
      (∀ j, j < i → ∀ t, fixtureGraph.segs[j]? = some t →
        testDist ⟨3, 3⟩ s.start < testDist ⟨3, 3⟩ t.start) :=
  claim_C3 testDist fixtureGraph ⟨3, 3⟩ (by decide) (by decide)

/-- Unfolding: on an empty frontier the loop exits with the JS result
`undefined` (modelled `none`), at any fuel. -/
theorem searchLoop_nil (endId : MapGraphSegmentId) (fuel : Nat) (g : Graph)
    (vis : List (MapGraphSegmentId × VisitedNode)) :
    searchLoop endId fuel ⟨g, [], vis⟩ = (some none, ⟨g, [], vis⟩) := by
  cases fuel with
  | zero => rfl
  | succ fuel => rfl

/-- Unfolding: a non-empty frontier with no fuel left marks divergence. -/
theorem searchLoop_zero (endId : MapGraphSegmentId) (g : Graph) (q0 : MapGraphSegment)
    (rest : List MapGraphSegment) (vis : List (MapGraphSegmentId × VisitedNode)) :
    searchLoop endId 0 ⟨g, q0 :: rest, vis⟩ = (none, ⟨g, q0 :: rest, vis⟩) := rfl

/-- Unfolding: one iteration of the loop on a non-empty frontier. -/
theorem searchLoop_succ (endId : MapGraphSegmentId) (fuel : Nat) (g : Graph)
    (q0 : MapGraphSegment) (rest : List MapGraphSegment)
    (vis : List (MapGraphSegmentId × VisitedNode)) :
    searchLoop endId (fuel + 1) ⟨g, q0 :: rest, vis⟩ =
      match g.getSegment q0.id with
      | none => searchLoop endId fuel ⟨g, rest, vis⟩
      | some segment =>
        match jsGet vis segment.id with
        | none => searchLoop endId fuel ⟨g, rest, vis⟩
        | some visitedNode =>
          if segment.id = endId then
            (some (some visitedNode.shortestPath), ⟨g, rest, vis⟩)
          else
            let qv := segment.edges.foldl (relaxEdge g visitedNode) (rest, vis)
            searchLoop endId fuel ⟨g, qv.1, qv.2⟩ := rfl

/-- Fuel monotonicity: once the loop exits within the given fuel, one more
unit of fuel changes neither the result nor the final state. -/
theorem searchLoop_mono (endId : MapGraphSegmentId) (fuel : Nat) (st : SearchState)
    (h : (searchLoop endId fuel st).1.isSome = true) :
    searchLoop endId (fuel + 1) st = searchLoop endId fuel st := by
  induction fuel generalizing st with
  | zero =>
    obtain ⟨g, queue, vis⟩ := st
    cases queue with
    | nil => rfl
    | cons q0 rest =>
      rw [searchLoop_zero] at h
      simp at h
  | succ fuel ih =>
    obtain ⟨g, queue, vis⟩ := st
    cases queue with
    | nil => rfl
    | cons q0 rest =>
      cases hseg : g.getSegment q0.id with
      | none =>
        simp only [searchLoop_succ, hseg] at h ⊢
        exact ih _ h
      | some segment =>
        cases hv : jsGet vis segment.id with
        | none =>
          simp only [searchLoop_succ, hseg, hv] at h ⊢
          exact ih _ h
        | some visitedNode =>
          by_cases hid : segment.id = endId
          · rw [hid] at hv
            simp [searchLoop_succ, hseg, hid, hv]
          · simp only [searchLoop_succ, hseg, hv, hid, if_false, ite_false] at h ⊢
            exact ih _ h

/-- Fuel stability: once the loop exits within the given fuel, any larger
fuel produces the identical outcome. -/
theorem searchLoop_stable (endId : MapGraphSegmentId) (fuel : Nat) (st : SearchState)
    (h : (searchLoop endId fuel st).1.isSome = true) :
    ∀ m, fuel ≤ m → searchLoop endId m st = searchLoop endId fuel st := by
  intro m hm
  induction m, hm using Nat.le_induction with
  | base => rfl
  | succ m hm ih =>
    rw [← ih]
    apply searchLoop_mono
    rw [ih]
    exact h

/-- Claim C5: on the empty graph, `findClosest` returns no result for any
query point, and the path search returns the absent no-route result
(JavaScript `undefined`, modelled `some none`) for any pair of query points
and any fuel, without any exceptional outcome. -/
theorem claim_C5 (dist : Point → Point → ℚ) (p q : Point) (fuel : Nat) :
    Graph.findClosest dist Graph.empty p = none ∧
    shortestPathBFS dist Graph.empty p q fuel = some none :=
  ⟨rfl, rfl⟩

/-- Claim C9: the search never mutates the graph: the graph component of the
loop state — the primary segment table, the start-coordinate index, and with
them every stored segment's fields — is returned unchanged by every run of
the search loop (endpoint resolution via `findClosest` is a pure read and
`shortestPathBFS` passes the graph to the loop state untouched). -/
theorem claim_C9 (endId : MapGraphSegmentId) (fuel : Nat) (st : SearchState) :
    (searchLoop endId fuel st).2.graph = st.graph := by
  induction fuel generalizing st with
  | zero =>
    obtain ⟨g, queue, vis⟩ := st
    cases queue with
    | nil => rfl
    | cons q0 rest => rfl
  | succ fuel ih =>
    obtain ⟨g, queue, vis⟩ := st
    cases queue with
    | nil => rfl
    | cons q0 rest =>
      cases hseg : g.getSegment q0.id with
      | none =>
        simp only [searchLoop_succ, hseg]
        exact ih _
      | some segment =>
        cases hv : jsGet vis segment.id with
        | none =>
          simp only [searchLoop_succ, hseg, hv]
          exact ih _
        | some visitedNode =>
          by_cases hid : segment.id = endId
          · rw [hid] at hv
            simp [searchLoop_succ, hseg, hid, hv]
          · simp only [searchLoop_succ, hseg, hv, hid, if_false, ite_false]
            exact ih _


/-- A segment produced by the `findClosest` scan is the initial accumulator
or one of the scanned segments. -/
theorem findClosest_scan_mem (dist : Point → Point → ℚ) (point : Point) :
    ∀ (l : List MapGraphSegment) (m : ℚ) (c : Option MapGraphSegment) (s : MapGraphSegment),
      (l.foldl (findClosestStep dist point) (m, c)).2 = some s → c = some s ∨ s ∈ l := by
  intro l
  induction l with
  | nil =>
    intro m c s h
    exact Or.inl h
  | cons a rest ih =>
    intro m c s h
    rw [List.foldl_cons] at h
    by_cases hd : dist point a.start < m
    · have hstep : findClosestStep dist point (m, c) a = (dist point a.start, some a) := by
        simp [findClosestStep, hd]
      rw [hstep] at h
      rcases ih _ _ _ h with hc | hm
      · exact Or.inr (List.mem_cons.mpr (Or.inl (Option.some_inj.mp hc).symm))
      · exact Or.inr (List.mem_cons.mpr (Or.inr hm))
    · have hstep : findClosestStep dist point (m, c) a = (m, c) := by
        simp [findClosestStep, hd]
      rw [hstep] at h
      rcases ih _ _ _ h with hc | hm
      · exact Or.inl hc
      · exact Or.inr (List.mem_cons.mpr (Or.inr hm))

/-- A segment returned by `findClosest` is stored in the graph. -/
theorem findClosest_mem {dist : Point → Point → ℚ} {g : Graph} {point : Point}
    {s : MapGraphSegment} (h : Graph.findClosest dist g point = some s) : s ∈ g.segs := by
  rcases findClosest_scan_mem dist point g.segs maxValue none s h with hc | hm
  · exact absurd hc (by simp)
  · exact hm

/-- When ids match keys and keys are distinct, looking a stored segment up by
its own id returns that segment. -/
theorem jsGet_ids :
    ∀ (l : List (MapGraphSegmentId × MapGraphSegment)),
      (∀ e ∈ l, e.2.id = e.1) → ((l.map Prod.fst).Nodup) →
      ∀ {s : MapGraphSegment}, s ∈ l.map Prod.snd → jsGet l s.id = some s := by
  intro l
  induction l with
  | nil =>
    intro _ _ s hs
    simp at hs
  | cons e rest ih =>
    intro hids hnd s hs
    have he : e.2.id = e.1 := hids e (List.mem_cons_self e rest)
    rw [List.map_cons, List.nodup_cons] at hnd
    simp only [List.map_cons, List.mem_cons] at hs
    rcases hs with hs | hs
    · subst hs
      simp [jsGet, he]
    · have hkey : s.id ∈ rest.map Prod.fst := by
        obtain ⟨e', he', rfl⟩ := List.mem_map.mp hs
        rw [hids e' (List.mem_cons_of_mem e he')]
        exact List.mem_map_of_mem Prod.fst he'
      have hne : ¬e.1 = s.id := fun hh => hnd.1 (hh ▸ hkey)
      rw [jsGet, if_neg hne]
      exact ih (fun e' he' => hids e' (List.mem_cons_of_mem e he')) hnd.2 hs

/-- In a graph whose stored ids match their keys and whose keys are distinct,
`getSegment` applied to a stored segment's id returns that segment. -/
theorem getSegment_id {g : Graph} (hids : IdsMatch g)
    (hnd : (g.nodes.map Prod.fst).Nodup) {s : MapGraphSegment} (hs : s ∈ g.segs) :
    g.getSegment s.id = some s :=
  jsGet_ids g.nodes hids hnd hs

/-- The adjacency pass does not change the keys of the primary table. -/
theorem finalize_keys (g : Graph) :
    (finalizeGraph g).nodes.map Prod.fst = g.nodes.map Prod.fst := by
  simp [finalizeGraph]

/-- The adjacency pass preserves the id/key agreement. -/
theorem finalize_idsMatch {g : Graph} (h : IdsMatch g) : IdsMatch (finalizeGraph g) := by
  intro e he
  simp only [finalizeGraph, List.mem_map] at he
  obtain ⟨a, ha, rfl⟩ := he
  exact h a ha

/-- A graph produced by the builder has ids matching keys and distinct keys. -/
theorem build_wf {response : HereFlowResponse} {g : Graph}
    (h : buildGraphFromHereResponse response = some g) :
    IdsMatch g ∧ (g.nodes.map Prod.fst).Nodup := by
  obtain ⟨g₀, -, hinv, -, rfl⟩ := build_decomp h
  refine ⟨finalize_idsMatch hinv.2.1, ?_⟩
  rw [finalize_keys, hinv.1]
  exact (List.nodup_range _).map (fun a b hab => Int.ofNat.inj hab)

/-- Claim C7: on a finalized builder graph, when both query points resolve
via `findClosest` to the same segment, the search succeeds with the empty
path: the first dequeued segment is the destination, whose recorded path is
empty. -/
theorem claim_C7 (dist : Point → Point → ℚ) (response : HereFlowResponse) (g : Graph)
    (p q : Point) (s : MapGraphSegment)
    (hb : buildGraphFromHereResponse response = some g)
    (hp : Graph.findClosest dist g p = some s)
    (hq : Graph.findClosest dist g q = some s) :
    ∀ fuel, shortestPathBFS dist g p q (fuel + 1) = some (some []) := by
  intro fuel
  obtain ⟨hids, hnd⟩ := build_wf hb
  have hget : g.getSegment s.id = some s := getSegment_id hids hnd (findClosest_mem hp)
  unfold shortestPathBFS
  rw [hp, hq]
  show (searchLoop s.id (fuel + 1) ⟨g, [s], [(s.id, ⟨[], 0, s.length⟩)]⟩).1 = some (some [])
  rw [searchLoop_succ]
  simp [hget, jsGet]

/-- Claim C8: when the frontier empties without the destination having been
dequeued, the search exits with the no-route result; in particular, a start
segment with no outgoing adjacency (a sink) is never expanded past itself,
so a search whose destination resolves to a different segment returns the
no-route result. -/
theorem claim_C8 :
    (∀ (endId : MapGraphSegmentId) (fuel : Nat) (g : Graph)
        (vis : List (MapGraphSegmentId × VisitedNode)),
      (searchLoop endId fuel ⟨g, [], vis⟩).1 = some none) ∧
    (∀ (dist : Point → Point → ℚ) (response : HereFlowResponse) (g : Graph)
        (p q : Point) (s t : MapGraphSegment),
      buildGraphFromHereResponse response = some g →
      Graph.findClosest dist g p = some s →
      Graph.findClosest dist g q = some t →
      s.edges = [] → s.id ≠ t.id →
      ∀ fuel, shortestPathBFS dist g p q (fuel + 1) = some none) := by
  constructor
  · intro endId fuel g vis
    rw [searchLoop_nil]
  · intro dist response g p q s t hb hp hq hedges hne fuel
    obtain ⟨hids, hnd⟩ := build_wf hb
    have hget : g.getSegment s.id = some s := getSegment_id hids hnd (findClosest_mem hp)
    unfold shortestPathBFS
    rw [hp, hq]
    show (searchLoop t.id (fuel + 1) ⟨g, [s], [(s.id, ⟨[], 0, s.length⟩)]⟩).1 = some none
    rw [searchLoop_succ]
    simp [hget, jsGet, hne, hedges, searchLoop_nil]

/-- Claim C1 concerns the spec fixture A = (0,0)→(1,1), B = (1,1)→(2,2),
C = (2,2)→(3,3), each of length 10, and asserts the search from (0,0) to
(3,3) returns [B, C].  The code does not: after dequeuing A it records B as
visited but enqueues only B's onward neighbours (here C); C is dequeued
unvisited and skipped, the frontier empties, and the function returns
`undefined` (no route).  The hypotheses are exactly the distance-ordering
facts of the fixture, true of the haversine distance: the query (0,0) is
strictly closest to A's start, and (3,3) strictly closest to C's start. -/
theorem claim_C1 (dist : Point → Point → ℚ)
    (h1 : dist ⟨0, 0⟩ ⟨0, 0⟩ < maxValue)
    (h2 : ¬dist ⟨0, 0⟩ ⟨1, 1⟩ < dist ⟨0, 0⟩ ⟨0, 0⟩)
    (h3 : ¬dist ⟨0, 0⟩ ⟨2, 2⟩ < dist ⟨0, 0⟩ ⟨0, 0⟩)
    (h4 : dist ⟨3, 3⟩ ⟨0, 0⟩ < maxValue)
    (h5 : dist ⟨3, 3⟩ ⟨1, 1⟩ < dist ⟨3, 3⟩ ⟨0, 0⟩)
    (h6 : dist ⟨3, 3⟩ ⟨2, 2⟩ < dist ⟨3, 3⟩ ⟨1, 1⟩) :
    ∀ fuel, 10 ≤ fuel →
      shortestPathBFS dist fixtureGraph ⟨0, 0⟩ ⟨3, 3⟩ fuel = some none ∧
      shortestPathBFS dist fixtureGraph ⟨0, 0⟩ ⟨3, 3⟩ fuel ≠
        some (some [fixtureSegB, fixtureSegC]) := by
  have hsegs : fixtureGraph.nodes.map Prod.snd =
      [fixtureSegA, fixtureSegB, fixtureSegC] := by decide
  have hA : Graph.findClosest dist fixtureGraph ⟨0, 0⟩ = some fixtureSegA := by
    unfold Graph.findClosest
    rw [hsegs]
    simp only [List.foldl_cons, List.foldl_nil]
    simp [findClosestStep, fixtureSegA, fixtureSegB, fixtureSegC, h1, h2, h3]
  have hC : Graph.findClosest dist fixtureGraph ⟨3, 3⟩ = some fixtureSegC := by
    unfold Graph.findClosest
    rw [hsegs]
    simp only [List.foldl_cons, List.foldl_nil]
    simp [findClosestStep, fixtureSegA, fixtureSegB, fixtureSegC, h4, h5, h6]
  intro fuel hfuel
  have hrun : shortestPathBFS dist fixtureGraph ⟨0, 0⟩ ⟨3, 3⟩ fuel = some none := by
    unfold shortestPathBFS
    rw [hA, hC]
    show (searchLoop fixtureSegC.id fuel
      ⟨fixtureGraph, [fixtureSegA], [(fixtureSegA.id, ⟨[], 0, fixtureSegA.length⟩)]⟩).1 =
        some none
    have h10 : (searchLoop fixtureSegC.id 10
        ⟨fixtureGraph, [fixtureSegA], [(fixtureSegA.id, ⟨[], 0, fixtureSegA.length⟩)]⟩).1 =
          some none := by decide
    have hsome : (searchLoop fixtureSegC.id 10
        ⟨fixtureGraph, [fixtureSegA], [(fixtureSegA.id, ⟨[], 0, fixtureSegA.length⟩)]⟩).1.isSome
          = true := by
      rw [h10]
      rfl
    rw [searchLoop_stable _ _ _ hsome fuel hfuel]
    exact h10
  refine ⟨hrun, ?_⟩
  rw [hrun]
  simp

/-- Witness for C1 at the concrete stand-in distance (which satisfies the six
ordering facts): at fuel 10 the code reports no route on the fixture, not the
path [B, C] the specification asserts. -/
theorem claim_C1_witness :
    shortestPathBFS testDist fixtureGraph ⟨0, 0⟩ ⟨3, 3⟩ 10 = some none ∧
    shortestPathBFS testDist fixtureGraph ⟨0, 0⟩ ⟨3, 3⟩ 10 ≠
      some (some [fixtureSegB, fixtureSegC]) :=
  claim_C1 testDist (by decide) (by decide) (by decide) (by decide) (by decide) (by decide)
    10 (by decide)

/-- Segments already stored survive an `addSegment`. -/
theorem mem_addSegment {g : Graph} (hk : KeysSeq g) (s : MapGraphSegment)
    {t : MapGraphSegment} (ht : t ∈ g.segs) : t ∈ (g.addSegment s).segs := by
  rw [addSegment_segs s hk]
  exact List.mem_append_left _ ht

/-- The inserted segment (with its assigned id) is stored by `addSegment`. -/
theorem addSegment_mem_self {g : Graph} (hk : KeysSeq g) (s : MapGraphSegment) :
    { s with id := (g.nodes.length : Int) } ∈ (g.addSegment s).segs := by
  rw [addSegment_segs s hk]
  exact List.mem_append_right _ (by simp)

/-- `insertLinks` preserves `KeysSeq` and never removes stored segments. -/
theorem insertLinks_mono {desc : Option String} :
    ∀ (links : List HereLink) (g g' : Graph), KeysSeq g →
      insertLinks g desc links = some g' →
      KeysSeq g' ∧ ∀ t ∈ g.segs, t ∈ g'.segs := by
  intro links
  induction links with
  | nil =>
    intro g g' hk h
    simp only [insertLinks] at h
    exact Option.some_inj.mp h ▸ ⟨hk, fun t ht => ht⟩
  | cons link rest ih =>
    intro g g' hk h
    simp only [insertLinks] at h
    cases hl : insertLink g desc link with
    | none =>
      rw [hl] at h
      exact absurd h (by simp)
    | some g1 =>
      rw [hl] at h
      obtain ⟨p1, ps, -, hg1⟩ := insertLink_some hl
      subst hg1
      obtain ⟨hk', hmono⟩ := ih _ g' (keysSeq_addSegment hk _) h
      exact ⟨hk', fun t ht => hmono t (mem_addSegment hk _ ht)⟩

/-- `insertResults` preserves `KeysSeq` and never removes stored segments. -/
theorem insertResults_mono :
    ∀ (results : List HereResult) (g g' : Graph), KeysSeq g →
      insertResults g results = some g' →
      KeysSeq g' ∧ ∀ t ∈ g.segs, t ∈ g'.segs := by
  intro results
  induction results with
  | nil =>
    intro g g' hk h
    simp only [insertResults] at h
    exact Option.some_inj.mp h ▸ ⟨hk, fun t ht => ht⟩
  | cons r rest ih =>
    intro g g' hk h
    simp only [insertResults] at h
    cases hl : insertLinks g r.location.description r.location.shape.links with
    | none =>
      rw [hl] at h
      exact absurd h (by simp)
    | some g1 =>
      rw [hl] at h
      obtain ⟨hk1, hm1⟩ := insertLinks_mono _ g g1 hk hl
      obtain ⟨hk', hm2⟩ := ih g1 g' hk1 h
      exact ⟨hk', fun t ht => hm2 t (hm1 t ht)⟩

/-- A single-point link inserted by `insertLinks` leaves a degenerate segment
(start = end = that point) in the resulting graph. -/
theorem insertLinks_single {desc : Option String} :
    ∀ (links : List HereLink) (g g' : Graph), KeysSeq g →
      insertLinks g desc links = some g' →
      ∀ link ∈ links, ∀ pt, link.points = [pt] →
        ∃ s ∈ g'.segs, s.start = ⟨pt.lat, pt.lng⟩ ∧ s.«end» = ⟨pt.lat, pt.lng⟩ := by
  intro links
  induction links with
  | nil =>
    intro g g' _ _ link hlink
    simp at hlink
  | cons link0 rest ih =>
    intro g g' hk h link hlink pt hpt
    simp only [insertLinks] at h
    cases hl : insertLink g desc link0 with
    | none =>
      rw [hl] at h
      exact absurd h (by simp)
    | some g1 =>
      rw [hl] at h
      rcases List.mem_cons.mp hlink with heq | htail
      · subst heq
        rw [insertLink, hpt] at hl
        have hg1 : g1 = g.addSegment
            (MapGraphSegment.make ⟨pt.lat, pt.lng⟩ ⟨pt.lat, pt.lng⟩ link.length desc) :=
          (Option.some_inj.mp hl).symm
        subst hg1
        refine ⟨{ MapGraphSegment.make ⟨pt.lat, pt.lng⟩ ⟨pt.lat, pt.lng⟩ link.length desc
            with id := (g.nodes.length : Int) }, ?_, rfl, rfl⟩
        exact (insertLinks_mono rest _ g' (keysSeq_addSegment hk _) h).2 _
          (addSegment_mem_self hk _)
      · obtain ⟨p1, ps, -, hg1⟩ := insertLink_some hl
        subst hg1
        exact ih _ g' (keysSeq_addSegment hk _) h link htail pt hpt

/-- A single-point link anywhere in the response leaves a degenerate segment
in the graph `insertResults` produces. -/
theorem insertResults_single :
    ∀ (results : List HereResult) (g g' : Graph), KeysSeq g →
      insertResults g results = some g' →
      ∀ r ∈ results, ∀ link ∈ r.location.shape.links, ∀ pt, link.points = [pt] →
        ∃ s ∈ g'.segs, s.start = ⟨pt.lat, pt.lng⟩ ∧ s.«end» = ⟨pt.lat, pt.lng⟩ := by
  intro results
  induction results with
  | nil =>
    intro g g' _ _ r hr
    simp at hr
  | cons r0 rest ih =>
    intro g g' hk h r hr link hlink pt hpt
    simp only [insertResults] at h
    cases hl : insertLinks g r0.location.description r0.location.shape.links with
    | none =>
      rw [hl] at h
      exact absurd h (by simp)
    | some g1 =>
      rw [hl] at h
      rcases List.mem_cons.mp hr with heq | htail
      · subst heq
        obtain ⟨s, hs, hstart, hend⟩ :=
          insertLinks_single _ g g1 hk hl link hlink pt hpt
        obtain ⟨hk1, -⟩ := insertLinks_mono _ g g1 hk hl
        exact ⟨s, (insertResults_mono rest g1 g' hk1 h).2 s hs, hstart, hend⟩
      · obtain ⟨hk1, -⟩ := insertLinks_mono _ g g1 hk hl
        exact ih g1 g' hk1 h r htail link hlink pt hpt

/-- Claim C4, amended: a link with exactly one point is accepted and yields a
degenerate segment whose start equals its end (both being that single point);
a link with an empty points sequence is not accepted — the builder throws
(modelled as `none`), see the counterexample theorem. -/
theorem claim_C4 (response : HereFlowResponse) (g : Graph)
    (hb : buildGraphFromHereResponse response = some g) :
    ∀ r ∈ response.results, ∀ link ∈ r.location.shape.links, ∀ pt, link.points = [pt] →
      ∃ s ∈ g.segs, s.start = s.«end» ∧ s.start = ⟨pt.lat, pt.lng⟩ := by
  obtain ⟨g₀, hins, hinv, -, rfl⟩ := build_decomp hb
  intro r hr link hlink pt hpt
  have hkeys : KeysSeq Graph.empty := by simp [KeysSeq, Graph.empty]
  obtain ⟨s₀, hs₀, hstart, hend⟩ :=
    insertResults_single response.results Graph.empty g₀ hkeys hins r hr link hlink pt hpt
  refine ⟨updateEdges g₀ s₀, ?_, ?_, ?_⟩
  · rw [finalizeGraph_segs]
    exact List.mem_map_of_mem _ hs₀
  · rw [updateEdges_start, updateEdges_end, hstart, hend]
  · rw [updateEdges_start, hstart]

/-- Counterexample for C4 as stated: on a response whose only link has an
empty `points` array the builder does not produce a graph at all — the
access `link.points[0].lat` throws, modelled as `none` — so no graph with a
degenerate segment is returned. -/
theorem claim_C4_counterexample : buildGraphFromHereResponse emptyLinkResponse = none := by
  decide

/-- Witness for the amended C4: the single-point-link fixture yields a
degenerate segment at (7,8). -/
theorem claim_C4_witness :
    ∃ s ∈ singleGraph.segs, s.start = s.«end» ∧ s.start = ⟨7, 8⟩ := by
  have hb : buildGraphFromHereResponse singleLinkResponse = some singleGraph := by decide
  exact claim_C4 singleLinkResponse singleGraph hb
    ⟨⟨some "single", ⟨[⟨[⟨7, 8⟩], 5⟩]⟩⟩⟩ (by decide)
    ⟨[⟨7, 8⟩], 5⟩ (by decide) ⟨7, 8⟩ (by decide)

/-- Witness for C7: on the chain fixture both endpoints (0,0) resolve to
segment A, and the search returns the empty path. -/
theorem claim_C7_witness :
    shortestPathBFS testDist fixtureGraph ⟨0, 0⟩ ⟨0, 0⟩ 5 = some (some []) :=
  claim_C7 testDist fixtureResponse fixtureGraph ⟨0, 0⟩ ⟨0, 0⟩ fixtureSegA
    (by decide) (by decide) (by decide) 4

/-- Witness for C8: the loop on an empty frontier reports no route, and on
the two disconnected sink segments the search from (0,0) to (5,5) reports no
route. -/
theorem claim_C8_witness :
    (searchLoop 0 3 ⟨sinkGraph, [], []⟩).1 = some none ∧
    shortestPathBFS testDist sinkGraph ⟨0, 0⟩ ⟨5, 5⟩ 5 = some none :=
  ⟨claim_C8.1 0 3 sinkGraph [],
   claim_C8.2 testDist sinkResponse sinkGraph ⟨0, 0⟩ ⟨5, 5⟩ sinkSegA sinkSegB
     (by decide) (by decide) (by decide) (by decide) (by decide) 4⟩

end HereGraph
